import Mathlib

/-!
Shallow embedding of the convergence core of `quickcfg`:
the dirty-tracked convergence ledger (`src/state.rs`) and the layered
hierarchy store with its directive resolver (`src/hierarchy.rs`).

Modelling conventions:
* `BTreeMap<String, V>` is modelled as an association list with a
  replace-or-append `alInsert`; lookups are first-match.
* `SystemTime::now()` is modelled by threading an explicit `now : Nat`
  timestamp into each mutating operation.
* The `FxHasher64` digest of a generic `H : Hash` value is modelled as an
  explicit fingerprint function `fp : α → Nat`.
* Rust `Result<T, Error>` becomes `Except String T`; `&mut self` methods
  become `State → State` functions; `&self` methods take `State` and, when
  the claim speaks about the receiver being left unchanged, also return it.
-/

namespace Quickcfg

/-! ## Association-list maps (model of `BTreeMap<String, V>`) -/

/-- First-match lookup in an association list. -/
def alGet {β : Type} : List (String × β) → String → Option β
  | [], _ => none
  | p :: t, k => if p.1 = k then some p.2 else alGet t k

/-- Model of `BTreeMap::insert`: replace the entry for the key if present, otherwise
append a fresh entry. -/
def alInsert {β : Type} : List (String × β) → String → β → List (String × β)
  | [], k, v => [(k, v)]
  | p :: t, k, v => if p.1 = k then (k, v) :: t else p :: alInsert t k v

/-- Model of `BTreeMap::extend`: insert every entry of `o` into `m`, in order. -/
def alExtend {β : Type} (m o : List (String × β)) : List (String × β) :=
  o.foldl (fun acc p => alInsert acc p.1 p.2) m

@[simp] theorem alGet_nil {β : Type} (k : String) : alGet ([] : List (String × β)) k = none := rfl

theorem alGet_alInsert_self {β : Type} (m : List (String × β)) (k : String) (v : β) :
    alGet (alInsert m k v) k = some v := by
  induction m with
  | nil => simp [alInsert, alGet]
  | cons p t ih =>
    by_cases h : p.1 = k
    · simp [alInsert, alGet, h]
    · simp [alInsert, alGet, h, ih]

theorem alGet_alInsert_ne {β : Type} (m : List (String × β)) (k k' : String) (v : β)
    (h : k ≠ k') : alGet (alInsert m k v) k' = alGet m k' := by
  induction m with
  | nil => simp [alInsert, alGet, h]
  | cons p t ih =>
    by_cases hp : p.1 = k
    · simp [alInsert, alGet, hp, h]
    · have hk : ¬(k' = k) := fun e => h e.symm
      by_cases hp' : p.1 = k'
      · simp [alInsert, alGet, hp, hp', hk]
      · simp [alInsert, alGet, hp, hp', ih]

theorem alGet_alExtend_notMem {β : Type} (m o : List (String × β)) (k : String)
    (h : ∀ p ∈ o, p.1 ≠ k) : alGet (alExtend m o) k = alGet m k := by
  induction o generalizing m with
  | nil => rfl
  | cons p t ih =>
    have hp : p.1 ≠ k := h p (by simp)
    have ht : ∀ q ∈ t, q.1 ≠ k := fun q hq => h q (by simp [hq])
    calc alGet (alExtend m (p :: t)) k
        = alGet (alExtend (alInsert m p.1 p.2) t) k := rfl
      _ = alGet (alInsert m p.1 p.2) k := ih _ ht
      _ = alGet m k := alGet_alInsert_ne _ _ _ _ hp

/-- Lookup after `alExtend`: when the keys of `o` are unique, the extending
map's value wins on every key it holds, and `m`'s value survives elsewhere. -/
theorem alGet_alExtend {β : Type} (m o : List (String × β)) (k : String)
    (hnd : (o.map Prod.fst).Nodup) :
    alGet (alExtend m o) k = (alGet o k).or (alGet m k) := by
  induction o generalizing m with
  | nil => rfl
  | cons p t ih =>
    have hnd' : (t.map Prod.fst).Nodup := (List.nodup_cons.mp hnd).2
    have hnotin : p.1 ∉ t.map Prod.fst := (List.nodup_cons.mp hnd).1
    by_cases h : p.1 = k
    · have ht : ∀ q ∈ t, q.1 ≠ k := by
        intro q hq
        intro hqk
        exact hnotin (h ▸ hqk ▸ List.mem_map_of_mem Prod.fst hq)
      calc alGet (alExtend m (p :: t)) k
          = alGet (alExtend (alInsert m p.1 p.2) t) k := rfl
        _ = alGet (alInsert m p.1 p.2) k := alGet_alExtend_notMem _ _ _ ht
        _ = some p.2 := h ▸ alGet_alInsert_self _ _ _
      simp [alGet, h, Option.or]
    · calc alGet (alExtend m (p :: t)) k
          = alGet (alExtend (alInsert m p.1 p.2) t) k := rfl
        _ = _ := ih _ hnd'
      simp [alGet, h, alGet_alInsert_ne m p.1 k p.2 h]

/-! ## The convergence ledger (`src/state.rs`) -/

/-- Rust `Hashed`: a stored fingerprint record (`hash: u64`, `updated: SystemTime`). -/
structure Hashed where
  hash : Nat
  updated : Nat
deriving DecidableEq, Repr

/-- Rust `DiskState`: the persisted snapshot form of the ledger. -/
structure DiskState where
  last_update : List (String × Nat)
  once : List (String × Nat)
  hashes : List (String × Hashed)
deriving DecidableEq, Repr

/-- Rust `State`: the in-memory ledger with its transient dirty flag. -/
structure State where
  dirty : Bool
  last_update : List (String × Nat)
  once : List (String × Nat)
  hashes : List (String × Hashed)
deriving DecidableEq, Repr

/-- Rust `DiskState::default()` / `State::default()` come from `derive(Default)`. -/
instance : Inhabited DiskState := ⟨⟨[], [], []⟩⟩

instance : Inhabited State := ⟨⟨false, [], [], []⟩⟩

/-- Rust `DiskState::to_state`: wrap the snapshot maps into a clean ledger. -/
def DiskState.to_state (d : DiskState) : State :=
  { dirty := false
    last_update := d.last_update
    once := d.once
    hashes := d.hashes }

namespace State

/-- Rust `State::last_update(name)`: pure read of the last-update map. -/
def lastUpdateOf (s : State) (name : String) : Option Nat :=
  alGet s.last_update name

/-- Rust `State::touch(name)`: record `now` for `name` and set the dirty flag. -/
def touch (s : State) (name : String) (now : Nat) : State :=
  { s with dirty := true, last_update := alInsert s.last_update name now }

/-- Rust `State::has_run_once(id)`: whether `once` holds the id. -/
def has_run_once (s : State) (id : String) : Bool :=
  (alGet s.once id).isSome

/-- Rust `State::touch_once(id)`: record `now` for `id` in `once`, set dirty. -/
def touch_once (s : State) (id : String) (now : Nat) : State :=
  { s with dirty := true, once := alInsert s.once id now }

/-- Rust `State::is_hash_fresh(id, hash)`: compare the stored record's digest with
the fingerprint of the given value.  The Rust method takes `&self` and returns
`Result<bool, Error>`; we return the (unchanged) receiver alongside the bool to
make the frame condition explicit. -/
def is_hash_fresh {α : Type} (fp : α → Nat) (s : State) (id : String) (h : α) :
    Except String (Bool × State) :=
  match alGet s.hashes id with
  | none => Except.ok (false, s)
  | some hashed => Except.ok (hashed.hash = fp h, s)

/-- Rust `State::touch_hash(id, hash)`: store the fingerprint of the value together
with `now`, and set the dirty flag.  The Rust method returns `Result<(), Error>`
but never errs; the mutation is total, so we return the new `State` directly. -/
def touch_hash {α : Type} (fp : α → Nat) (s : State) (id : String) (h : α) (now : Nat) : State :=
  { s with
    dirty := true
    hashes := alInsert s.hashes id { hash := fp h, updated := now } }

/-- Rust `State::extend(other)`: early-return when `other` is clean, otherwise set
dirty and extend `last_update` and `once` (but not `hashes`). -/
def extend (s : State) (other : State) : State :=
  if !other.dirty then s
  else
    { s with
      dirty := true
      last_update := alExtend s.last_update other.last_update
      once := alExtend s.once other.once }

/-- Rust `State::serialize()`: `None` unless dirty, otherwise the snapshot of all
three maps. -/
def serialize (s : State) : Option DiskState :=
  if !s.dirty then none
  else some { last_update := s.last_update, once := s.once, hashes := s.hashes }

end State

/-- The mutating ledger operations, as one step relation for the dirty-flag
state machine. -/
inductive LedgerOp (α : Type) where
  | touch (name : String) (now : Nat)
  | touchOnce (id : String) (now : Nat)
  | touchHash (id : String) (v : α) (now : Nat)
  | extendWith (other : State)
deriving Repr

/-- Apply one mutating ledger operation. -/
def applyOp {α : Type} (fp : α → Nat) (s : State) : LedgerOp α → State
  | .touch n t => s.touch n t
  | .touchOnce i t => s.touch_once i t
  | .touchHash i v t => s.touch_hash fp i v t
  | .extendWith o => s.extend o

/-! ## The hierarchy of data (`src/hierarchy.rs`)

Rust strings consumed by the directive resolver are modelled as `List Char`;
`serde_yaml::Value` is the inductive `Value` below, a `serde_yaml::Mapping`
is its ordered entry list, and generic `T: Deserialize` targets are modelled
by an explicit decoder `dec : Value → Except String T`. -/

/-- Model of `serde_yaml::Value`. -/
inductive Value where
  | vnull
  | vbool (b : Bool)
  | vstr (s : String)
  | vint (n : Int)
  | vseq (items : List Value)
  | vmap (entries : List (Value × Value))

/-- Model of `serde_yaml::Mapping`: an ordered list of key/value entries. -/
abbrev Mapping := List (Value × Value)

/-- Whether a mapping key equals `Value::String(k)`.  All lookups and inserts
performed by the code use string keys, so only this comparison is ever
exercised. -/
def keyIsStr : Value → String → Bool
  | .vstr s, k => s = k
  | _, _ => false

/-- Model of `Mapping::get(&Value::String(k))`: first entry whose key is the
string `k`. -/
def mapGet (m : Mapping) (k : String) : Option Value :=
  (m.find? fun p => keyIsStr p.1 k).map Prod.snd

/-- Model of `Mapping::insert(Value::String(k), v)`: replace the value of the
existing entry for the key, otherwise append a fresh entry. -/
def mapInsert (m : Mapping) (k : String) (v : Value) : Mapping :=
  if m.any fun p => keyIsStr p.1 k then
    m.map fun p => if keyIsStr p.1 k then (p.1, v) else p
  else m ++ [(Value.vstr k, v)]

/-- Wrapper for hierarchy data (`struct Data(Vec<Mapping>)`). -/
abbrev Data := List Mapping

/-- Rust `Data::load::<T>(key)`: return the first layer's value for the key,
decoded; absence in every layer is `none`, not an error. -/
def Data.load {T : Type} (dec : Value → Except String T) : Data → String → Except String (Option T)
  | [], _ => Except.ok none
  | m :: rest, key =>
    match mapGet m key with
    | some v => (dec v).map some
    | none => Data.load dec rest key

/-- Rust `Data::load_or_default::<T>(key)`: substitute `T::default()` for
absence. -/
def Data.load_or_default {T : Type} (dec : Value → Except String T) (dfl : T)
    (d : Data) (key : String) : Except String T :=
  (Data.load dec d key).map fun v => v.getD dfl

/-- Model of `<Vec<T> as Deserialize>::deserialize(value)`: the value must be
a sequence and every element must decode. -/
def decodeVec {T : Type} (dec : Value → Except String T) : Value → Except String (List T)
  | .vseq items => items.mapM dec
  | _ => Except.error "invalid type: expected a sequence"

/-- Loop body accumulation of `Data::load_array`: visit the remaining layers
in order, appending each present layer's decoded sequence to `out`. -/
def loadArrayGo {T : Type} (dec : Value → Except String T) :
    Data → String → List T → Except String (List T)
  | [], _, out => Except.ok out
  | m :: rest, key, out =>
    match mapGet m key with
    | some v =>
      match decodeVec dec v with
      | Except.ok items => loadArrayGo dec rest key (out ++ items)
      | Except.error e => Except.error e
    | none => loadArrayGo dec rest key out

/-- Rust `Data::load_array::<T>(key)`: concatenate every layer's sequence
value for the key. -/
def Data.load_array {T : Type} (dec : Value → Except String T) (d : Data) (key : String) :
    Except String (List T) :=
  loadArrayGo dec d key []

/-! ### String machinery for the directive resolver -/

/-- Rust `const HEADER: &str`. -/
def HEADER : String := "quickcfg:"

/-- Whether `pat` occurs at the start of `s` (model of `str::starts_with`,
used to locate the first substring occurrence). -/
def leadsWith : List Char → List Char → Bool
  | [], _ => true
  | _ :: _, [] => false
  | a :: as, b :: bs => a == b && leadsWith as bs

/-- Model of `line.find(pat)` followed by slicing `&line[index + pat.len()..]`:
the suffix of `s` after the first occurrence of `pat`, if any. -/
def afterFirstOcc (pat : List Char) : List Char → Option (List Char)
  | [] => if leadsWith pat [] then some [] else none
  | c :: t =>
    if leadsWith pat (c :: t) then some ((c :: t).drop pat.length)
    else afterFirstOcc pat t

/-- Model of `str::split(sep)` for a one-character separator: splits into the
pieces between occurrences, keeping empty pieces. -/
def splitChar (sep : Char) : List Char → List (List Char)
  | [] => [[]]
  | c :: t =>
    if c = sep then [] :: splitChar sep t
    else
      match splitChar sep t with
      | [] => [[c]]
      | h :: r => (c :: h) :: r

/-- Model of `str::splitn(2, sep)` for a one-character separator, as the two
iterator items: the piece before the first occurrence, and optionally the
whole remainder after it. -/
def splitn2Char (sep : Char) : List Char → List Char × Option (List Char)
  | [] => ([], none)
  | c :: t =>
    if c = sep then ([], some t)
    else
      let (k, r) := splitn2Char sep t
      (c :: k, r)

/-- Model of `str::trim`: drop whitespace from both ends. -/
def trimChars (l : List Char) : List Char :=
  ((l.dropWhile Char.isWhitespace).reverse.dropWhile Char.isWhitespace).reverse

/-! ### The directive resolver (`Data::load_from_spec`) -/

/-- One comma-separated entry of the directive line: trim it, skip it when
blank (`ok none`), otherwise split `key[:kind]` on the first colon and resolve
according to the kind, as in the `match it.next()` of `load_from_spec`.  The
process environment is modelled by `envf`. -/
def resolvePart (d : Data) (envf : String → Option String) (rawPart : List Char) :
    Except String (Option (String × Value)) :=
  let part := trimChars rawPart
  if part.isEmpty then Except.ok none
  else
    let (keyChars, kind) := splitn2Char ':' part
    let key : String := ⟨keyChars⟩
    match kind with
    | some k =>
      if k = "array".data then
        (Data.load_array (fun v => Except.ok v) d key).map fun vs => some (key, Value.vseq vs)
      else if k = "env".data then
        match envf key with
        | some v => Except.ok (some (key, Value.vstr v))
        | none => Except.error ("failed to load environment variable `" ++ key ++ "`")
      else Except.error ("bad part in specification `" ++ key ++ "`: bad type")
    | none =>
      match Data.load (fun v => Except.ok v) d key with
      | Except.ok (some v) => Except.ok (some (key, v))
      | Except.ok none => Except.error ("missing key `" ++ key ++ "` in hierarchy")
      | Except.error e => Except.error e

/-- Fold of the directive line's entries over the accumulating mapping `m`;
any failing entry aborts the whole resolution. -/
def processParts (d : Data) (envf : String → Option String) :
    List (List Char) → Mapping → Except String Mapping
  | [], m => Except.ok m
  | part :: rest, m =>
    match resolvePart d envf part with
    | Except.ok none => processParts d envf rest m
    | Except.ok (some (k, v)) => processParts d envf rest (mapInsert m k v)
    | Except.error e => Except.error e

/-- Process the part of a matching line after the header: trim, split on
commas, resolve every entry into a fresh mapping. -/
def processLine (d : Data) (envf : String → Option String) (suffix : List Char) :
    Except String Mapping :=
  processParts d envf (splitChar ',' (trimChars suffix)) []

/-- The line loop of `load_from_spec`: skip lines without the header, process
the first line containing it and stop (`break`). -/
def loadFromSpecGo (d : Data) (envf : String → Option String) :
    List (List Char) → Except String Mapping
  | [] => Except.ok []
  | line :: rest =>
    match afterFirstOcc HEADER.data line with
    | none => loadFromSpecGo d envf rest
    | some suffix => processLine d envf suffix

/-- Rust `Data::load_from_spec(content)`: look at the first 5 lines only. -/
def Data.load_from_spec (d : Data) (envf : String → Option String) (content : List Char) :
    Except String Mapping :=
  loadFromSpecGo d envf ((splitChar '\n' content).take 5)

/-! ## Claim theorems about the convergence ledger -/

/-- C1: `State::extend(self, other)` is a no-op (all three maps and the dirty
flag untouched) when `other.dirty` is false; when `other.dirty` is true it
merges `other.last_update` and `other.once` into the corresponding maps with
`other`'s value winning on key collision, sets `self.dirty`, and never touches
`self.hashes`. -/
theorem State.extend_spec (s o : State)
    (hndL : (o.last_update.map Prod.fst).Nodup)
    (hndO : (o.once.map Prod.fst).Nodup) :
    (o.dirty = false → s.extend o = s) ∧
    (o.dirty = true →
      (s.extend o).dirty = true ∧
      (s.extend o).hashes = s.hashes ∧
      (∀ k, alGet (s.extend o).last_update k =
        (alGet o.last_update k).or (alGet s.last_update k)) ∧
      (∀ k, alGet (s.extend o).once k =
        (alGet o.once k).or (alGet s.once k))) := by
  constructor
  · intro h
    simp [State.extend, h]
  · intro h
    refine ⟨by simp [State.extend, h], by simp [State.extend, h], ?_, ?_⟩
    · intro k
      simp only [State.extend, h]
      exact alGet_alExtend _ _ _ hndL
    · intro k
      simp only [State.extend, h]
      exact alGet_alExtend _ _ _ hndO

/-- Witness for C1 at concrete ledgers: a clean argument leaves the receiver
unchanged, and a dirty argument merges with the argument's value winning. -/
theorem State.extend_spec_witness :
    (State.extend ⟨true, [("k", 1)], [], []⟩ ⟨false, [("k", 9)], [], []⟩ =
      ⟨true, [("k", 1)], [], []⟩) ∧
    (alGet (State.extend ⟨true, [("k", 1)], [], []⟩
      ⟨true, [("k", 9)], [], []⟩).last_update "k" = some 9) := by
  constructor
  · exact (State.extend_spec ⟨true, [("k", 1)], [], []⟩ ⟨false, [("k", 9)], [], []⟩
      (by decide) (by decide)).1 rfl
  · have h := ((State.extend_spec ⟨true, [("k", 1)], [], []⟩ ⟨true, [("k", 9)], [], []⟩
      (by decide) (by decide)).2 rfl).2.2.1 "k"
    rw [h]
    rfl

/-- C2: the dirty flag is a two-state machine.  Ledgers obtained from a loaded
snapshot or by default construction start clean; `touch`, `touch_once`,
`touch_hash` and `extend` with a dirty argument all set the flag; and no
mutating ledger operation ever resets the flag back to clean. -/
theorem State.dirty_state_machine {α : Type} (fp : α → Nat) (d : DiskState) (s o : State)
    (op : LedgerOp α) (name id : String) (v : α) (now : Nat) :
    d.to_state.dirty = false ∧
    (default : State).dirty = false ∧
    (s.touch name now).dirty = true ∧
    (s.touch_once id now).dirty = true ∧
    (s.touch_hash fp id v now).dirty = true ∧
    (o.dirty = true → (s.extend o).dirty = true) ∧
    (s.dirty = true → (applyOp fp s op).dirty = true) := by
  refine ⟨rfl, rfl, rfl, rfl, rfl, ?_, ?_⟩
  · intro h
    simp [State.extend, h]
  · intro h
    cases op with
    | touch n t => rfl
    | touchOnce i t => rfl
    | touchHash i w t => rfl
    | extendWith o' =>
      show (s.extend o').dirty = true
      by_cases ho : o'.dirty
      · simp [State.extend, ho]
      · simp [State.extend, ho, h]

/-- Witness for C2 at concrete inputs. -/
theorem State.dirty_state_machine_witness :
    (DiskState.to_state ⟨[("a", 3)], [], []⟩).dirty = false ∧
    (State.extend ⟨false, [], [], []⟩ ⟨true, [], [], []⟩).dirty = true ∧
    (applyOp (fun n : Nat => n) ⟨true, [], [], []⟩ (.touch "x" 0)).dirty = true := by
  have h := State.dirty_state_machine (fun n : Nat => n) ⟨[("a", 3)], [], []⟩
    ⟨false, [], [], []⟩ ⟨true, [], [], []⟩ (.touch "x" 0) "n" "i" 7 0
  have h' := State.dirty_state_machine (fun n : Nat => n) ⟨[("a", 3)], [], []⟩
    ⟨true, [], [], []⟩ ⟨true, [], [], []⟩ (LedgerOp.touch "x" 0) "n" "i" 7 0
  exact ⟨h.1, h.2.2.2.2.2.1 rfl, h'.2.2.2.2.2.2 rfl⟩

/-- C3: `State::serialize` returns nothing on a clean ledger (in particular on
one freshly loaded from a snapshot) and, on a dirty ledger, a snapshot holding
exactly the three maps. -/
theorem State.serialize_spec (s : State) (d : DiskState) :
    (s.dirty = false → s.serialize = none) ∧
    (s.dirty = true → s.serialize = some ⟨s.last_update, s.once, s.hashes⟩) ∧
    d.to_state.serialize = none := by
  refine ⟨?_, ?_, rfl⟩
  · intro h
    simp [State.serialize, h]
  · intro h
    simp [State.serialize, h]

/-- Witness for C3 at concrete ledgers. -/
theorem State.serialize_spec_witness :
    State.serialize ⟨false, [("a", 1)], [], []⟩ = none ∧
    State.serialize ⟨true, [("a", 1)], [], []⟩ = some ⟨[("a", 1)], [], []⟩ := by
  have h₁ := State.serialize_spec ⟨false, [("a", 1)], [], []⟩ ⟨[], [], []⟩
  have h₂ := State.serialize_spec ⟨true, [("a", 1)], [], []⟩ ⟨[], [], []⟩
  exact ⟨h₁.1 rfl, h₂.2.1 rfl⟩

/-- C6: `is_hash_fresh(id, value)` answers true exactly when a record is
stored for `id` whose digest equals the fingerprint of `value`; an id without
a record is never fresh; after `touch_hash(id, v)` the pair `(id, v)` is fresh
and any value with a different fingerprint is not. -/
theorem State.is_hash_fresh_spec {α : Type} (fp : α → Nat) (s : State) (id : String)
    (v v' : α) (now : Nat) (hne : fp v' ≠ fp v) :
    (∀ b s', s.is_hash_fresh fp id v = Except.ok (b, s') →
      (b = true ↔ ∃ r, alGet s.hashes id = some r ∧ r.hash = fp v)) ∧
    (alGet s.hashes id = none → s.is_hash_fresh fp id v = Except.ok (false, s)) ∧
    (s.touch_hash fp id v now).is_hash_fresh fp id v =
      Except.ok (true, s.touch_hash fp id v now) ∧
    (s.touch_hash fp id v now).is_hash_fresh fp id v' =
      Except.ok (false, s.touch_hash fp id v now) := by
  have hget : alGet (s.touch_hash fp id v now).hashes id = some ⟨fp v, now⟩ :=
    alGet_alInsert_self _ _ _
  refine ⟨?_, ?_, ?_, ?_⟩
  · intro b s' hok
    cases hr : alGet s.hashes id with
    | none =>
      simp [State.is_hash_fresh, hr] at hok
      simp [hok.1, hr]
    | some r =>
      simp [State.is_hash_fresh, hr] at hok
      constructor
      · intro hb
        refine ⟨r, rfl, ?_⟩
        have hd := hok.1
        rw [hb] at hd
        exact of_decide_eq_true hd
      · rintro ⟨r', hr', hh⟩
        injection hr' with hr''
        subst hr''
        rw [← hok.1]
        simp [hh]
  · intro hr
    simp [State.is_hash_fresh, hr]
  · simp [State.is_hash_fresh, hget]
  · simp [State.is_hash_fresh, hget]
    exact fun hc => hne hc.symm

/-- Witness for C6 at a concrete ledger with the identity fingerprint. -/
theorem State.is_hash_fresh_spec_witness :
    State.is_hash_fresh (fun n : Nat => n) (State.touch_hash (fun n : Nat => n)
      ⟨false, [], [], []⟩ "id" 1 0) "id" 1 =
      Except.ok (true, State.touch_hash (fun n : Nat => n) ⟨false, [], [], []⟩ "id" 1 0) ∧
    State.is_hash_fresh (fun n : Nat => n) (State.touch_hash (fun n : Nat => n)
      ⟨false, [], [], []⟩ "id" 1 0) "id" 2 =
      Except.ok (false, State.touch_hash (fun n : Nat => n) ⟨false, [], [], []⟩ "id" 1 0) := by
  have h := State.is_hash_fresh_spec (fun n : Nat => n) ⟨false, [], [], []⟩ "id" 1 2 0
    (by decide)
  exact ⟨h.2.2.1, h.2.2.2⟩

/-! ## Claim theorems about the hierarchy layer store -/

/-- Loading a key absent from every layer scans to the end and returns an
`Ok(None)`. -/
theorem load_eq_none_of_absent {T : Type} (dec : Value → Except String T) (key : String) :
    ∀ layers : Data, (∀ m' ∈ layers, mapGet m' key = none) →
      Data.load dec layers key = Except.ok none
  | [], _ => rfl
  | m0 :: rest, h => by
    have h0 : mapGet m0 key = none := h m0 (by simp)
    have hr := load_eq_none_of_absent dec key rest (fun m' hm' => h m' (by simp [hm']))
    simp [Data.load, h0, hr]

/-- Loading a key stops at the first layer holding it: the remaining layers
are never consulted. -/
theorem load_eq_of_first {T : Type} (dec : Value → Except String T) (key : String)
    (m : Mapping) (post : Data) (v : Value) (hm : mapGet m key = some v) :
    ∀ pre : Data, (∀ m' ∈ pre, mapGet m' key = none) →
      Data.load dec (pre ++ m :: post) key = (dec v).map some
  | [], _ => by simp [Data.load, hm]
  | m0 :: rest, h => by
    have h0 : mapGet m0 key = none := h m0 (by simp)
    have hr := load_eq_of_first dec key m post v hm rest (fun m' hm' => h m' (by simp [hm']))
    simp [Data.load, h0, hr]

/-- C4: `Data::load` scans the layers in stored order: the first layer holding
the key decides the result outright (its value decoded into the requested
shape, a decode failure surfacing as the error), and a key held by no layer
yields `Ok(None)`, not an error. -/
theorem Data.load_spec {T : Type} (dec : Value → Except String T) (key : String)
    (layers pre post : Data) (m : Mapping) (v : Value)
    (habs : ∀ m' ∈ layers, mapGet m' key = none)
    (hpre : ∀ m' ∈ pre, mapGet m' key = none)
    (hm : mapGet m key = some v) :
    Data.load dec layers key = Except.ok none ∧
    Data.load dec (pre ++ m :: post) key = (dec v).map some :=
  ⟨load_eq_none_of_absent dec key layers habs, load_eq_of_first dec key m post v hm pre hpre⟩

/-- Witness for C4 on the layers of the repository's own test: layer 1 maps
`foo` to `foo value`, layer 2 maps `bar` to `bar value`. -/
theorem Data.load_spec_witness :
    Data.load (fun v => Except.ok v)
      [[(Value.vstr "foo", Value.vstr "foo value")], [(Value.vstr "bar", Value.vstr "bar value")]]
      "missing" = Except.ok none ∧
    Data.load (fun v => Except.ok v)
      [[(Value.vstr "foo", Value.vstr "foo value")], [(Value.vstr "bar", Value.vstr "bar value")]]
      "foo" = Except.ok (some (Value.vstr "foo value")) := by
  have h1 := Data.load_spec (fun v => Except.ok v) "missing"
    [[(Value.vstr "foo", Value.vstr "foo value")], [(Value.vstr "bar", Value.vstr "bar value")]]
    [] [] [(Value.vstr "missing", Value.vnull)] Value.vnull
    (by intro m' h'
        simp only [List.mem_cons, List.not_mem_nil, or_false] at h'
        rcases h' with h' | h' <;> (subst h'; rfl))
    (by intro m' h'; simp at h')
    rfl
  have h2 := Data.load_spec (fun v => Except.ok v) "foo"
    [] [] [[(Value.vstr "bar", Value.vstr "bar value")]]
    [(Value.vstr "foo", Value.vstr "foo value")] (Value.vstr "foo value")
    (by intro m' h'; simp at h')
    (by intro m' h'; simp at h')
    rfl
  exact ⟨h1.1, h2.2⟩

/-- Per-layer contribution to `Data::load_array`: the decoded sequence of the
layer's value for the key, or nothing when the layer lacks the key.  (Used
only to state what the accumulated result is; the fallback for a failing
decode is irrelevant under the hypothesis that every present value decodes.) -/
def contribOf {T : Type} (dec : Value → Except String T) (key : String) : Data → List (List T)
  | [] => []
  | m :: rest =>
    (match mapGet m key with
     | none => []
     | some v =>
       match decodeVec dec v with
       | Except.ok items => items
       | Except.error _ => []) :: contribOf dec key rest

/-- The loop of `Data::load_array` appends every layer's decoded sequence to
the accumulator, in layer order. -/
theorem loadArrayGo_eq {T : Type} (dec : Value → Except String T) (key : String) :
    ∀ (d : Data) (out : List T),
      (∀ m ∈ d, ∀ v, mapGet m key = some v → ∃ items, decodeVec dec v = Except.ok items) →
      loadArrayGo dec d key out = Except.ok (out ++ (contribOf dec key d).flatten)
  | [], out, _ => by simp [loadArrayGo, contribOf]
  | m0 :: rest, out, h => by
    have hrest : ∀ m' ∈ rest, ∀ v, mapGet m' key = some v →
        ∃ items, decodeVec dec v = Except.ok items :=
      fun m' hm' => h m' (by simp [hm'])
    cases hv : mapGet m0 key with
    | none =>
      have hr := loadArrayGo_eq dec key rest out hrest
      simp [loadArrayGo, hv, contribOf, hr]
    | some v =>
      obtain ⟨items, hit⟩ := h m0 (by simp) v hv
      have hr := loadArrayGo_eq dec key rest (out ++ items) hrest
      simp [loadArrayGo, hv, hit, contribOf, hr]

/-- C5: `Data::load_array` visits every layer in stored order and concatenates
each layer's decoded sequence for the key (earlier layers first); layers
lacking the key contribute nothing, and when no layer has the key the result
is the empty vector. -/
theorem Data.load_array_spec {T : Type} (dec : Value → Except String T) (key : String)
    (d : Data)
    (hdec : ∀ m ∈ d, ∀ v, mapGet m key = some v → ∃ items, decodeVec dec v = Except.ok items) :
    Data.load_array dec d key = Except.ok (contribOf dec key d).flatten ∧
    ((∀ m ∈ d, mapGet m key = none) → Data.load_array dec d key = Except.ok []) := by
  have h := loadArrayGo_eq dec key d [] hdec
  constructor
  · simpa [Data.load_array] using h
  · intro habs
    have hj : ∀ dd : Data, (∀ m ∈ dd, mapGet m key = none) →
        (contribOf dec key dd).flatten = ([] : List T) := by
      intro dd
      induction dd with
      | nil => intro _; rfl
      | cons m0 rest ih =>
        intro hh
        have h0 : mapGet m0 key = none := hh m0 (by simp)
        have hr := ih (fun m' hm' => hh m' (by simp [hm']))
        simp [contribOf, h0, hr]
    have := hj d habs
    rw [this] at h
    simpa [Data.load_array] using h

/-- Witness for C5 on the layers of the repository's own test: each layer maps
`seq` to a one-element sequence, and the merged array is `[item1, item2]` in
layer order. -/
theorem Data.load_array_spec_witness :
    Data.load_array (fun v => Except.ok v)
      [[(Value.vstr "seq", Value.vseq [Value.vstr "item1"])],
       [(Value.vstr "seq", Value.vseq [Value.vstr "item2"])]]
      "seq" = Except.ok [Value.vstr "item1", Value.vstr "item2"] := by
  have h := Data.load_array_spec (fun v => Except.ok v) "seq"
    [[(Value.vstr "seq", Value.vseq [Value.vstr "item1"])],
     [(Value.vstr "seq", Value.vseq [Value.vstr "item2"])]]
    (by
      intro m hm v hv
      simp only [List.mem_cons, List.not_mem_nil, or_false] at hm
      rcases hm with hm | hm <;>
        (subst hm; injection hv with hv'; subst hv'; exact ⟨_, rfl⟩))
  exact h.1

/-! ## Claim theorems about the directive resolver -/

theorem splitChar_ne_nil (sep : Char) : ∀ l : List Char, splitChar sep l ≠ []
  | [] => by simp [splitChar]
  | c :: t => by
    by_cases h : c = sep
    · simp [splitChar, h]
    · cases hsp : splitChar sep t with
      | nil => simp [splitChar, h, hsp]
      | cons h0 r0 => simp [splitChar, h, hsp]

/-- Splitting at a separator occurrence splits the two sides independently. -/
theorem splitChar_append (sep : Char) :
    ∀ a b : List Char, splitChar sep (a ++ sep :: b) = splitChar sep a ++ splitChar sep b
  | [], b => by simp [splitChar]
  | c :: t, b => by
    have ih := splitChar_append sep t b
    by_cases h : c = sep
    · simp [splitChar, h, ih]
    · cases hsp : splitChar sep t with
      | nil => exact absurd hsp (splitChar_ne_nil sep t)
      | cons h0 r0 =>
        rw [hsp] at ih
        simp [splitChar, h, ih, hsp]

/-- A piece without the separator is returned whole by `splitn(2, sep)`. -/
theorem splitn2Char_no_sep (sep : Char) :
    ∀ k : List Char, sep ∉ k → splitn2Char sep k = (k, none)
  | [], _ => rfl
  | c :: t, h => by
    have hc : ¬(c = sep) := fun e => h (by simp [e])
    have ht : sep ∉ t := fun e => h (by simp [e])
    simp [splitn2Char, hc, splitn2Char_no_sep sep t ht]

/-- `splitn(2, sep)` cuts at the first separator: everything after it, further
separators included, lands in the second piece. -/
theorem splitn2Char_first (sep : Char) :
    ∀ k rest : List Char, sep ∉ k → splitn2Char sep (k ++ sep :: rest) = (k, some rest)
  | [], rest, _ => by simp [splitn2Char]
  | c :: t, rest, h => by
    have hc : ¬(c = sep) := fun e => h (by simp [e])
    have ht : sep ∉ t := fun e => h (by simp [e])
    simp [splitn2Char, hc, splitn2Char_first sep t rest ht]

/-- The line loop resolves the first line holding the header, whatever
follows it. -/
theorem loadFromSpecGo_first (d : Data) (envf : String → Option String) :
    ∀ (lines1 : List (List Char)) (line : List Char) (lines2 : List (List Char))
      (suffix : List Char),
      (∀ l ∈ lines1, afterFirstOcc HEADER.data l = none) →
      afterFirstOcc HEADER.data line = some suffix →
      loadFromSpecGo d envf (lines1 ++ line :: lines2) = processLine d envf suffix
  | [], line, lines2, suffix, _, hl => by simp [loadFromSpecGo, hl]
  | l0 :: rest, line, lines2, suffix, h, hl => by
    have h0 := h l0 (by simp)
    have hr := loadFromSpecGo_first d envf rest line lines2 suffix
      (fun l hm => h l (by simp [hm])) hl
    simp [loadFromSpecGo, h0, hr]

/-- The line loop yields the empty mapping when no line holds the header. -/
theorem loadFromSpecGo_none (d : Data) (envf : String → Option String) :
    ∀ lines : List (List Char), (∀ l ∈ lines, afterFirstOcc HEADER.data l = none) →
      loadFromSpecGo d envf lines = Except.ok []
  | [], _ => rfl
  | l0 :: rest, h => by
    have h0 := h l0 (by simp)
    have hr := loadFromSpecGo_none d envf rest (fun l hm => h l (by simp [hm]))
    simp [loadFromSpecGo, h0, hr]

/-- C8: the resolver looks at the first 5 lines only (anything appended past
an existing fifth line cannot change the result), processes exactly the first
line containing the `quickcfg:` header (later lines of the window, header or
not, are ignored), and skips comma entries that are blank after trimming. -/
theorem Data.load_from_spec_scan (d : Data) (envf : String → Option String)
    (content extra : List Char) (lines1 lines2 : List (List Char))
    (line suffix part : List Char) (parts : List (List Char)) (m : Mapping) :
    (5 ≤ (splitChar '\n' content).length →
      Data.load_from_spec d envf (content ++ '\n' :: extra) =
        Data.load_from_spec d envf content) ∧
    ((splitChar '\n' content).take 5 = lines1 ++ line :: lines2 →
      (∀ l ∈ lines1, afterFirstOcc HEADER.data l = none) →
      afterFirstOcc HEADER.data line = some suffix →
      Data.load_from_spec d envf content = processLine d envf suffix) ∧
    (trimChars part = [] →
      processParts d envf (part :: parts) m = processParts d envf parts m) := by
  refine ⟨?_, ?_, ?_⟩
  · intro h
    show loadFromSpecGo d envf ((splitChar '\n' (content ++ '\n' :: extra)).take 5) = _
    rw [splitChar_append, List.take_append_of_le_length h]
    rfl
  · intro ht h1 hl
    show loadFromSpecGo d envf ((splitChar '\n' content).take 5) = _
    rw [ht]
    exact loadFromSpecGo_first d envf lines1 line lines2 suffix h1 hl
  · intro h
    simp [processParts, resolvePart, h]

/-- Witness for C8: appending a sixth line holding a directive changes
nothing, the first header line of a window wins, and a blank entry is
skipped. -/
theorem Data.load_from_spec_scan_witness :
    Data.load_from_spec [] (fun _ => none)
      ("a\nb\nc\nd\ne".data ++ '\n' :: "quickcfg: x".data) =
      Data.load_from_spec [] (fun _ => none) "a\nb\nc\nd\ne".data ∧
    Data.load_from_spec [] (fun _ => none) "x\nquickcfg:\nquickcfg: nope".data =
      processLine [] (fun _ => none) [] ∧
    processParts [] (fun _ => none) ["  ".data] [] =
      processParts [] (fun _ => none) [] [] := by
  have h1 := (Data.load_from_spec_scan [] (fun _ => none) "a\nb\nc\nd\ne".data
    "quickcfg: x".data [] [] [] [] [] [] []).1 (by decide)
  have h2 := (Data.load_from_spec_scan [] (fun _ => none)
    "x\nquickcfg:\nquickcfg: nope".data [] ["x".data] ["quickcfg: nope".data]
    "quickcfg:".data [] "  ".data [] []).2.1 (by decide) (by decide) (by decide)
  have h3 := (Data.load_from_spec_scan [] (fun _ => none) [] [] [] [] [] []
    "  ".data [] []).2.2 (by decide)
  exact ⟨h1, h2, h3⟩

/-- C9: when none of the first 5 lines contains the header token, the resolver
succeeds with an empty mapping — a missing directive line is not an error. -/
theorem Data.load_from_spec_no_header (d : Data) (envf : String → Option String)
    (content : List Char)
    (h : ∀ l ∈ (splitChar '\n' content).take 5, afterFirstOcc HEADER.data l = none) :
    Data.load_from_spec d envf content = Except.ok [] :=
  loadFromSpecGo_none d envf _ h

/-- Witness for C9 on header-free content. -/
theorem Data.load_from_spec_no_header_witness :
    Data.load_from_spec [] (fun _ => none) "hello\nworld".data = Except.ok [] :=
  Data.load_from_spec_no_header [] (fun _ => none) "hello\nworld".data (by decide)

/-- C7: directive entries resolve by kind — a bare key requires a present key
via `load` and is a hard error when every layer lacks it, `key:array` resolves
via the array merge, `key:env` reads the process environment and errs on a
missing variable, any other kind token errs — and a resolved line contributes
one mapping entry per entry, so `quickcfg: a, b:array, c:env` yields entries
for `a`, `b` and `c`. -/
theorem resolvePart_spec (d : Data) (envf : String → Option String)
    (raw rawA rawE rawO : List Char) (keyChars kindChars : List Char)
    (hk : ':' ∉ keyChars) (hne : keyChars ≠ [])
    (h1 : trimChars raw = keyChars)
    (h2 : trimChars rawA = keyChars ++ ':' :: "array".data)
    (h3 : trimChars rawE = keyChars ++ ':' :: "env".data)
    (h4 : trimChars rawO = keyChars ++ ':' :: kindChars)
    (hkA : kindChars ≠ "array".data) (hkE : kindChars ≠ "env".data) :
    (resolvePart d envf raw =
      match Data.load (fun v => Except.ok v) d (String.mk keyChars) with
      | Except.ok (some v) => Except.ok (some (String.mk keyChars, v))
      | Except.ok none =>
        Except.error ("missing key `" ++ String.mk keyChars ++ "` in hierarchy")
      | Except.error e => Except.error e) ∧
    (resolvePart d envf rawA =
      (Data.load_array (fun v => Except.ok v) d (String.mk keyChars)).map
        fun vs => some (String.mk keyChars, Value.vseq vs)) ∧
    (resolvePart d envf rawE =
      match envf (String.mk keyChars) with
      | some v => Except.ok (some (String.mk keyChars, Value.vstr v))
      | none =>
        Except.error
          ("failed to load environment variable `" ++ String.mk keyChars ++ "`")) ∧
    (∃ e, resolvePart d envf rawO = Except.error e) ∧
    (Data.load_from_spec
        [[(Value.vstr "a", Value.vstr "A"), (Value.vstr "b", Value.vseq [Value.vstr "B1"])]]
        (fun k => if k = "c" then some "C value" else none)
        "quickcfg: a, b:array, c:env".data =
      Except.ok [(Value.vstr "a", Value.vstr "A"),
                 (Value.vstr "b", Value.vseq [Value.vstr "B1"]),
                 (Value.vstr "c", Value.vstr "C value")]) := by
  obtain ⟨c0, t0, hke⟩ := List.exists_cons_of_ne_nil hne
  refine ⟨?_, ?_, ?_, ?_, by rfl⟩
  · have hempty : keyChars.isEmpty = false := by simp [List.isEmpty_iff, hne]
    simp only [resolvePart, h1, hempty, Bool.false_eq_true, if_false,
      splitn2Char_no_sep ':' keyChars hk]
  · have hempty : (keyChars ++ ':' :: "array".data).isEmpty = false := by
      simp [List.isEmpty_iff, hke]
    simp only [resolvePart, h2, hempty, Bool.false_eq_true, if_false,
      splitn2Char_first ':' keyChars _ hk]
    simp
  · have hempty : (keyChars ++ ':' :: "env".data).isEmpty = false := by
      simp [List.isEmpty_iff, hke]
    simp only [resolvePart, h3, hempty, Bool.false_eq_true, if_false,
      splitn2Char_first ':' keyChars _ hk]
    simp
  · have hempty : (keyChars ++ ':' :: kindChars).isEmpty = false := by
      simp [List.isEmpty_iff, hke]
    simp only [resolvePart, h4, hempty, Bool.false_eq_true, if_false,
      splitn2Char_first ':' keyChars _ hk]
    simp [hkA, hkE]

/-- Witness for C7 at a one-layer store holding `a` and an environment
defining only `a`. -/
theorem resolvePart_spec_witness :
    resolvePart [[(Value.vstr "a", Value.vstr "A")]]
      (fun k => if k = "a" then some "ENV" else none) " a ".data =
      Except.ok (some ("a", Value.vstr "A")) ∧
    resolvePart [[(Value.vstr "a", Value.vstr "A")]]
      (fun k => if k = "a" then some "ENV" else none) "a:env".data =
      Except.ok (some ("a", Value.vstr "ENV")) ∧
    (∃ e, resolvePart [[(Value.vstr "a", Value.vstr "A")]]
      (fun k => if k = "a" then some "ENV" else none) "a:weird".data =
      Except.error e) := by
  have h := resolvePart_spec [[(Value.vstr "a", Value.vstr "A")]]
    (fun k => if k = "a" then some "ENV" else none)
    " a ".data "a:array".data "a:env".data "a:weird".data "a".data "weird".data
    (by decide) (by decide) (by decide) (by decide) (by decide) (by decide)
    (by decide) (by decide)
  exact ⟨h.1.trans rfl, h.2.2.1.trans rfl, h.2.2.2.1⟩

/-- C10: `State::is_hash_fresh` can never actually err — its `Result` is
always `Ok` — and it leaves the receiving ledger (dirty flag included)
completely unchanged. -/
theorem State.is_hash_fresh_total_frame {α : Type} (fp : α → Nat) (s : State)
    (id : String) (v : α) :
    ∃ b : Bool, s.is_hash_fresh fp id v = Except.ok (b, s) := by
  cases hr : alGet s.hashes id with
  | none => exact ⟨false, by simp [State.is_hash_fresh, hr]⟩
  | some r => exact ⟨decide (r.hash = fp v), by simp [State.is_hash_fresh, hr]⟩

end Quickcfg
